import Mathlib

/-!
Verification of the chunking pipeline in `src/chunking.py`
(`data-ingestion` repository).

The development shallowly embeds the functions of `chunking.py` that the
claims are about:

* `_num_tokens_from_words` / `_num_chars_from_tokens` — the token estimator.
  The Python source computes `int(num_words * 1.3)`, a *floating point*
  multiplication; the embedding models the IEEE-754 double `1.3` by its
  exact significand and performs the round-to-nearest-even multiplication
  explicitly, so the embedding agrees with CPython bit for bit for every
  word count below `2 ^ 53` (above that, CPython additionally rounds the
  int operand when converting it to a double; all statements proved here
  stay far below that line).
* `DocumentChunker.fuse_texts` — the fusion stage, parameterised by the
  session tokenizer, which is modelled as an arbitrary token-count
  function `String → Nat` (the Python code calls
  `len(tokenizer.tokenize(text))`).
* the markdown-table regex cleanup of `chunk_markdowns` — the two
  `re.sub` calls, implemented as a character-level state machine that is
  faithful to the left-to-right, non-overlapping semantics of `re.sub`
  for these two patterns.
* `chunk_markdowns` and `DocumentChunker.chunk_documents` — parameterised
  by the external backends (the langchain text splitter and the docling
  `HybridChunker`), which live outside this repository.
* `split_docs_by_filetype` and the validation part of
  `DocumentChunker.__init__`.
-/

namespace Chunking

/-! ## Token estimator (`_num_tokens_from_words`, `_num_chars_from_tokens`) -/

/-- The 53-bit significand of the IEEE-754 double nearest to the literal
`1.3`, i.e. the numerator of that double over `2 ^ 52`.  Derivation:
`1.3 * 2 ^ 52 = 58546795155816448 / 10 = 5854679515581644.8`, which rounds
to the nearest integer `5854679515581645`; hence the double `1.3` is
exactly `5854679515581645 / 2 ^ 52 = 1.3000000000000000444…`. -/
def onePointThreeSig : Nat := 5854679515581645

/-- Fuel-bounded binary logarithm: `log2Fuel fuel n = ⌊log₂ n⌋` for every
`1 ≤ n < 2 ^ fuel` (proved below, together with agreement with
`Nat.log2`).  The explicit fuel keeps the function structurally recursive,
so that the kernel can evaluate it on concrete inputs. -/
def log2Fuel : Nat → Nat → Nat
  | 0, _ => 0
  | fuel + 1, n => if 2 ≤ n then log2Fuel fuel (n / 2) + 1 else 0

/-- `⌊log₂ n⌋`, correct for every `n < 2 ^ 1200` — far beyond the largest
finite IEEE-754 double (doubles overflow at `2 ^ 1024`), so for every value
that can arise in the modelled float computation. -/
def floorLog2 (n : Nat) : Nat := log2Fuel 1200 n

/-- Round a natural number to 53 significant bits, round-to-nearest,
ties-to-even.  This is exactly how a real in `[2 ^ 52, 2 ^ 1024)` whose
fractional bits below the kept precision are zero is rounded to an IEEE-754
double; we use it (a) on an integer operand converted to double and (b) on
the exact integer numerator (in units of `2 ^ (-52)`) of the product of two
doubles.  Subnormals and overflow are irrelevant in the ranges used. -/
def roundDoubleSig (W : Nat) : Nat :=
  if W < 2 ^ 53 then W
  else
    let s := floorLog2 W - 52
    let q := W / 2 ^ s
    let r := W % 2 ^ s
    let h := 2 ^ (s - 1)
    (if h < r then q + 1 else if r < h then q else if q % 2 = 1 then q + 1 else q) * 2 ^ s

/-- `_num_tokens_from_words(num_words) = int(num_words * 1.3)` from
`chunking.py`.  CPython converts the int `num_words` to a double (one
rounding), multiplies it by the double `1.3` (a second rounding of the
exact product, which is `roundDoubleSig num_words * onePointThreeSig` in
units of `2 ^ (-52)`), and `int()` then truncates toward zero, which on a
nonnegative value is floor, i.e. natural division by `2 ^ 52`. -/
def _num_tokens_from_words (num_words : Nat) : Nat :=
  roundDoubleSig (roundDoubleSig num_words * onePointThreeSig) / 2 ^ 52

/-- `_num_chars_from_tokens(num_tokens) = int(num_tokens * 4)` from
`chunking.py`; `4` is an int literal, so this is exact integer
arithmetic. -/
def _num_chars_from_tokens (num_tokens : Nat) : Nat :=
  num_tokens * 4

/-! ## Fusion stage (`DocumentChunker.fuse_texts`) -/

/-- One iteration of the loop in `fuse_texts`.  The state is the pair
`(fused_texts, previous_long_text)`.  The Python guard is
`token_count <= short_length_threshold and previous_long_text`, where the
truthiness of the string `previous_long_text` means "non-empty"; on a merge
the code executes `fused_texts[-1] += "\n\n" + text` (in place on the last
emitted entry).  From the `fuse_texts` entry state `([], "")` the list
component is provably non-empty whenever the string component is non-empty,
so the `getD ""` below is never exercised on an empty list (where CPython
would raise `IndexError`). -/
def fuse_step (count : String → Nat) (short_length_threshold : Nat)
    (st : List String × String) (text : String) : List String × String :=
  if count text ≤ short_length_threshold ∧ st.2 ≠ "" then
    (st.1.dropLast ++ [(st.1.getLast?.getD "") ++ "\n\n" ++ text], st.2)
  else
    (st.1 ++ [text], text)

/-- `DocumentChunker.fuse_texts(text_list, short_length_threshold=130)`.
The session tokenizer enters only through
`get_token_count(text, tokenizer) = len(tokenizer.tokenize(text))`,
modelled by the arbitrary function `count`. -/
def fuse_texts (count : String → Nat) (text_list : List String)
    (short_length_threshold : Nat := 130) : List String :=
  (text_list.foldl (fuse_step count short_length_threshold) ([], "")).1

/-- Joining a list of strings with a blank line (two newline characters),
the separator used by `fuse_texts`. -/
def joinNN : List String → String
  | [] => ""
  | [a] => a
  | a :: b :: rest => a ++ "\n\n" ++ joinNN (b :: rest)

/-- The tail of a blank-line join: `joinNN (a :: l) = a ++ preJoin l`. -/
def preJoin : List String → String
  | [] => ""
  | x :: xs => "\n\n" ++ x ++ preJoin xs

/-! ## Markdown-table regex cleanup (`chunk_markdowns`, lines 373–376)

`re.sub(r"-{2,}\|", "-|", docs)` followed by `re.sub(r"\  +\|", " |", docs)`.
Both patterns have the shape "a run of two or more copies of a character `d`
immediately followed by `'|'`", replaced by one `d` and the pipe (`d = '-'`
for the first, `d = ' '` for the second).  `re.sub` scans left to right and
replaces non-overlapping matches; since `-{2,}` (resp. the spaces) is greedy
and a match can only start at the first character of a maximal run, each
maximal run of length ≥ 2 that is immediately followed by a pipe is replaced
as a whole.  `collapseAux` realises exactly that with a counter of pending
`d` characters. -/

/-- State machine for one `re.sub` pass: `pending` is the number of `d`
characters read but not yet emitted.  On `'|'` with `pending ≥ 2` the run
collapses to a single `d`; otherwise pending characters are flushed
verbatim. -/
def collapseAux (d : Char) (pending : Nat) : List Char → List Char
  | [] => List.replicate pending d
  | c :: rest =>
    if c = d then
      collapseAux d (pending + 1) rest
    else if c = '|' ∧ 2 ≤ pending then
      d :: '|' :: collapseAux d 0 rest
    else
      List.replicate pending d ++ c :: collapseAux d 0 rest

/-- One full `re.sub` pass collapsing runs of ≥ 2 copies of `d` directly
before a pipe down to a single `d`. -/
def collapseRuns (d : Char) (l : List Char) : List Char :=
  collapseAux d 0 l

/-- The two regex substitutions of `chunk_markdowns`, in source order:
first dashes (`-{2,}\|` ↦ `-|`), then spaces (`\  +\|` ↦ ` |`). -/
def cleanTable (s : String) : String :=
  ⟨collapseRuns ' ' (collapseRuns '-' s.data)⟩

/-- Scan mirror of `collapseAux`: `hasMatchAux d pending l` is true iff the
pattern "two or more copies of `d` immediately before `'|'`" still matches
in `replicate pending d ++ l`, i.e. iff the corresponding `re.sub` pass
would change anything.  Same traversal as `collapseAux`, but only
detecting. -/
def hasMatchAux (d : Char) (pending : Nat) : List Char → Bool
  | [] => false
  | c :: rest =>
    if c = d then hasMatchAux d (pending + 1) rest
    else if c = '|' ∧ 2 ≤ pending then true
    else hasMatchAux d 0 rest

/-! ## Markdown re-splitter (`chunk_markdowns`) -/

/-- `chunk_markdowns(documents, chunk_size)`.  The langchain
`RecursiveCharacterTextSplitter` is external to this repository; it is
modelled by the parameter `split : Nat → String → List String` mapping the
configured `chunk_size` and a (cleaned) document to the list of
`page_content` strings of `create_documents`.  The function applies the two
regex cleanups to each document, splits it, and extends the flat `content`
accumulator, exactly as the Python loop does. -/
def chunk_markdowns (split : Nat → String → List String) (documents : List String)
    (chunk_size : Nat) : List String :=
  documents.foldl (fun content docs => content ++ split chunk_size (cleanTable docs)) []

/-- Modelled from the spec: the langchain `RecursiveCharacterTextSplitter`
(external to this repository) is "a recursive structural splitter
parameterized for markdown syntax … producing a sequence of page-content
strings per input chunk, each ≤ char_budget", "except when no structural
split point exists below budget (degenerate oversized atomic token)".  The
splitter is a parameter `split`; this predicate is its spec-level contract,
with `atomic` the abstract "no structural split point below budget"
exception. -/
def RespectsCharBudget (split : Nat → String → List String)
    (atomic : String → Prop) : Prop :=
  ∀ (chunk_size : Nat) (s p : String), p ∈ split chunk_size s →
    p.length ≤ chunk_size ∨ atomic p

/-! ## Conversion results and the orchestrator loop
(`DocumentChunker.chunk_documents`, `DocumentChunker.export_documents`) -/

/-- docling's `ConversionStatus` (only the distinction the code makes:
`SUCCESS` versus anything else). -/
inductive ConvStatus
  | SUCCESS
  | FAILURE
deriving DecidableEq

/-- One docling `ConversionResult`: a status, the (possibly partial)
document, and the originating file (`result.input.file`).  The structured
document type is abstract (`Doc`). -/
structure ConvResult (Doc : Type) where
  status : ConvStatus
  document : Doc
  file : String

/-- `DocumentChunker.chunk_documents()`.  External backends are parameters:
`count` is the session tokenizer's token-count function (used by
`fuse_texts`); `chunkFn` models `HybridChunker.chunk` plus `serialize` —
`some chunks` on success, `none` when chunking raises (the `except` branch
logs the file and sets `chunks = []`); `split` models the langchain
splitter inside `chunk_markdowns`.  Note that the loop body reads only
`conversion_result.document`: the conversion status is never inspected. -/
def chunk_documents {Doc : Type} (count : String → Nat)
    (chunkFn : Doc → Option (List String)) (split : Nat → String → List String)
    (chunk_word_count : Nat) (parsed_documents : List (ConvResult Doc)) : List String :=
  parsed_documents.foldl
    (fun all_chunks conversion_result =>
      let doc := conversion_result.document
      let chunks := match chunkFn doc with
        | some cs => cs
        | none => []
      let fused_texts := fuse_texts count chunks 200
      let num_tokens_per_doc := _num_tokens_from_words chunk_word_count
      let chunk_size := _num_chars_from_tokens num_tokens_per_doc
      let final_chunks := chunk_markdowns split fused_texts chunk_size
      all_chunks ++ final_chunks)
    []

/-- The contribution of one conversion result to the output of
`chunk_documents` (the loop body's `final_chunks`). -/
def perDocChunks {Doc : Type} (count : String → Nat)
    (chunkFn : Doc → Option (List String)) (split : Nat → String → List String)
    (chunk_word_count : Nat) (cr : ConvResult Doc) : List String :=
  chunk_markdowns split (fuse_texts count ((chunkFn cr.document).getD []) 200)
    (_num_chars_from_tokens (_num_tokens_from_words chunk_word_count))

/-- The success/failure counting loop of
`DocumentChunker.export_documents` (the file writing is an external side
effect; only the counters are relevant to the claims).  Returns
`(success_count, failure_count)`. -/
def export_counts {Doc : Type} (converted_docs : List (ConvResult Doc)) : Nat × Nat :=
  converted_docs.foldl
    (fun counts doc =>
      if doc.status = ConvStatus.SUCCESS then (counts.1 + 1, counts.2)
      else (counts.1, counts.2 + 1))
    (0, 0)

/-! ## Construction-time validation
(`split_docs_by_filetype`, `DocumentChunker.__init__`) -/

/-- A document path, abstracted to the data the validation reads:
`pathlib.Path.suffix` (the extension including the dot, `""` if none). -/
structure DocPath where
  suffix : String
deriving DecidableEq

/-- `SUPPORTED_FILETYPES = [".pdf", ".md"]`. -/
def SUPPORTED_FILETYPES : List String := [".pdf", ".md"]

/-- The spec's construction-error taxonomy; the Python code raises
`ValueError` for all three, with the messages
"Provided empty list of documents", "Provided unsupported filetype …" and
"Provided multiple document types" respectively. -/
inductive ChunkerError
  | EmptyDocumentSet
  | UnsupportedFileType (ext : String)
  | MixedDocumentTypes
deriving DecidableEq

/-- Append `p` under key `ft` of an insertion-ordered dict
(`defaultdict(list)` keyed by filetype). -/
def addToDict (dict : List (String × List DocPath)) (ft : String) (p : DocPath) :
    List (String × List DocPath) :=
  match dict with
  | [] => [(ft, [p])]
  | (k, ps) :: rest =>
    if k = ft then (k, ps ++ [p]) :: rest else (k, ps) :: addToDict rest ft p

/-- The loop of `split_docs_by_filetype`: raise on the first unsupported
extension, otherwise group paths by extension preserving first-seen key
order (Python dict insertion order). -/
def splitDocsAux (dict : List (String × List DocPath)) :
    List DocPath → Except ChunkerError (List (String × List DocPath))
  | [] => .ok dict
  | path :: rest =>
    if path.suffix ∈ SUPPORTED_FILETYPES then
      splitDocsAux (addToDict dict path.suffix path) rest
    else
      .error (.UnsupportedFileType path.suffix)

/-- `split_docs_by_filetype(document_paths)`. -/
def split_docs_by_filetype (document_paths : List DocPath) :
    Except ChunkerError (List (String × List DocPath)) :=
  splitDocsAux [] document_paths

/-- The heavy, effectful initialisation steps of `DocumentChunker.__init__`
that run only after validation: `_init_docling_converter` (which may
download models over the network) and `create_tokenizer` (which loads a
model artifact). -/
inductive InitEffect
  | InitConverter
  | LoadTokenizer
deriving DecidableEq

/-- The validation prefix of `DocumentChunker.__init__`, together with the
trace of heavy effects it triggers.  Mirrors the source order: the
empty-list check, then `split_docs_by_filetype` (which raises on an
unsupported extension), then the multiple-filetype check, and only then the
converter initialisation and tokenizer load; on success the first
`(filetype, paths)` pair of the dict is taken. -/
def DocumentChunker_init (document_paths : List DocPath) :
    List InitEffect × Except ChunkerError (String × List DocPath) :=
  if document_paths.isEmpty then
    ([], .error .EmptyDocumentSet)
  else
    match split_docs_by_filetype document_paths with
    | .error e => ([], .error e)
    | .ok document_dict =>
      if 1 < document_dict.length then
        ([], .error .MixedDocumentTypes)
      else
        match document_dict with
        | [] => ([], .error .EmptyDocumentSet)
        | (ft, ps) :: _ =>
          ([InitEffect.InitConverter, InitEffect.LoadTokenizer], .ok (ft, ps))

/-! ## Lemmas about the fusion stage -/

theorem joinNN_cons_of_ne (x : String) {l : List String} (h : l ≠ []) :
    joinNN (x :: l) = x ++ "\n\n" ++ joinNN l := by
  cases l with
  | nil => exact absurd rfl h
  | cons b bs => rfl

theorem joinNN_cons_preJoin (a : String) (l : List String) :
    joinNN (a :: l) = a ++ preJoin l := by
  induction l generalizing a with
  | nil => simp [joinNN, preJoin]
  | cons b bs ih =>
    rw [joinNN_cons_of_ne a (by simp), ih, preJoin]
    simp [String.append_assoc]

theorem joinNN_append_singleton {g : List String} (h : g ≠ []) (t : String) :
    joinNN (g ++ [t]) = joinNN g ++ "\n\n" ++ t := by
  induction g with
  | nil => exact absurd rfl h
  | cons a gs ih =>
    cases gs with
    | nil => rfl
    | cons b bs =>
      rw [List.cons_append, joinNN_cons_of_ne a (by simp),
        joinNN_cons_of_ne a (List.cons_ne_nil b bs), ih (List.cons_ne_nil b bs)]
      simp [String.append_assoc]

/-- The key rearrangement: merging `t` into the preceding entry does not
change the blank-line join of the whole sequence. -/
theorem joinNN_merge (xs : List String) (a t : String) (ys : List String) :
    joinNN (xs ++ (a ++ "\n\n" ++ t) :: ys) = joinNN (xs ++ a :: t :: ys) := by
  induction xs with
  | nil =>
    cases ys with
    | nil => rfl
    | cons y ys' =>
      rw [List.nil_append, List.nil_append,
        joinNN_cons_of_ne (a ++ "\n\n" ++ t) (List.cons_ne_nil y ys'),
        joinNN_cons_of_ne a (List.cons_ne_nil t (y :: ys')),
        joinNN_cons_of_ne t (List.cons_ne_nil y ys')]
      simp [String.append_assoc]
  | cons x xs' ih =>
    rw [List.cons_append, List.cons_append, joinNN_cons_of_ne x (by simp),
      joinNN_cons_of_ne x (by simp), ih]

/-- Every step of the fusion fold leaves a non-empty accumulator. -/
theorem fuse_step_fst_ne_nil (count : String → Nat) (thr : Nat)
    (st : List String × String) (t : String) : (fuse_step count thr st t).1 ≠ [] := by
  unfold fuse_step
  split <;> simp

/-- The fusion fold does not change the blank-line join: the invariant is
stated for every state reachable from the entry state `([], "")`
(for these, an empty accumulator forces an empty `previous_long_text`). -/
theorem foldl_fuse_joinNN (count : String → Nat) (thr : Nat) :
    ∀ (l : List String) (st : List String × String), (st.1 = [] → st.2 = "") →
      joinNN (List.foldl (fuse_step count thr) st l).1 = joinNN (st.1 ++ l)
  | [], st, _ => by simp
  | t :: ts, st, hst => by
    rw [List.foldl_cons,
      foldl_fuse_joinNN count thr ts (fuse_step count thr st t)
        (fun h => absurd h (fuse_step_fst_ne_nil count thr st t))]
    unfold fuse_step
    split
    case isTrue h =>
      have hne : st.1 ≠ [] := fun hnil => h.2 (hst hnil)
      rw [List.getLast?_eq_getLast st.1 hne, Option.getD_some]
      conv_rhs => rw [← List.dropLast_append_getLast hne]
      show joinNN (st.1.dropLast ++ [st.1.getLast hne ++ "\n\n" ++ t] ++ ts)
        = joinNN (st.1.dropLast ++ [st.1.getLast hne] ++ t :: ts)
      rw [List.append_assoc, List.append_assoc]
      exact joinNN_merge _ _ _ _
    case isFalse h =>
      show joinNN (st.1 ++ [t] ++ ts) = joinNN (st.1 ++ t :: ts)
      rw [List.append_assoc]
      rfl

/-- Merging run: if the previous long text is non-empty, a block of
chunks that are all at or below the threshold is appended, blank-line
separated, to the last emitted entry. -/
theorem foldl_fuse_merge (count : String → Nat) (thr : Nat) :
    ∀ (ts pre : List String) (a prev : String), prev ≠ "" →
      (∀ x ∈ ts, count x ≤ thr) →
      List.foldl (fuse_step count thr) (pre ++ [a], prev) ts
        = (pre ++ [a ++ preJoin ts], prev)
  | [], pre, a, prev, _, _ => by simp [preJoin]
  | x :: xs, pre, a, prev, hprev, hall => by
    have hx : count x ≤ thr := hall x (List.mem_cons_self _ _)
    have hstep : fuse_step count thr (pre ++ [a], prev) x
        = (pre ++ [a ++ "\n\n" ++ x], prev) := by
      simp [fuse_step, hx, hprev, List.dropLast_concat, List.getLast?_concat]
    rw [List.foldl_cons, hstep,
      foldl_fuse_merge count thr xs pre (a ++ "\n\n" ++ x) prev hprev
        (fun y hy => hall y (List.mem_cons_of_mem _ hy))]
    simp [preJoin, String.append_assoc]

/-- The fusion fold realises a partition of its input into contiguous,
non-empty groups, each group joined by blank lines. -/
theorem foldl_fuse_partition (count : String → Nat) (thr : Nat) :
    ∀ (l : List String) (st : List String × String) (P : List (List String)),
      (st.1 = [] → st.2 = "") →
      st.1 = P.map joinNN → (∀ g ∈ P, g ≠ []) →
      ∃ Q : List (List String),
        (List.foldl (fuse_step count thr) st l).1 = Q.map joinNN ∧
        Q.flatten = P.flatten ++ l ∧ (∀ g ∈ Q, g ≠ [])
  | [], st, P, _, hmap, hne => ⟨P, by simpa using hmap, by simp, hne⟩
  | t :: ts, st, P, hst, hmap, hne => by
    rw [List.foldl_cons]
    by_cases h : count t ≤ thr ∧ st.2 ≠ ""
    · have hne1 : st.1 ≠ [] := fun hnil => h.2 (hst hnil)
      have hPne : P ≠ [] := by
        intro hP; exact hne1 (by simp [hmap, hP])
      obtain ⟨P₀, g, rfl⟩ : ∃ P₀ g, P = P₀ ++ [g] :=
        ⟨P.dropLast, P.getLast hPne, (List.dropLast_append_getLast hPne).symm⟩
      have hg : g ≠ [] := hne g (by simp)
      have hstep : fuse_step count thr st t
          = (P₀.map joinNN ++ [joinNN (g ++ [t])], st.2) := by
        unfold fuse_step
        rw [if_pos h, hmap]
        simp [List.dropLast_concat, List.getLast?_concat, joinNN_append_singleton hg]
      rw [hstep]
      obtain ⟨Q, hQmap, hQjoin, hQne⟩ :=
        foldl_fuse_partition count thr ts (P₀.map joinNN ++ [joinNN (g ++ [t])], st.2)
          (P₀ ++ [g ++ [t]])
          (fun hnil => absurd hnil (by simp))
          (by simp)
          (fun g' hg' => by
            rcases List.mem_append.1 hg' with hmem | hmem
            · exact hne g' (List.mem_append_left _ hmem)
            · simp at hmem
              subst hmem
              simp)
      refine ⟨Q, hQmap, ?_, hQne⟩
      rw [hQjoin]
      simp
    · have hstep : fuse_step count thr st t = (P.map joinNN ++ [t], t) := by
        unfold fuse_step
        rw [if_neg h, hmap]
      rw [hstep]
      obtain ⟨Q, hQmap, hQjoin, hQne⟩ :=
        foldl_fuse_partition count thr ts (P.map joinNN ++ [t], t) (P ++ [[t]])
          (fun hnil => absurd hnil (by simp))
          (by simp [joinNN])
          (fun g' hg' => by
            rcases List.mem_append.1 hg' with hmem | hmem
            · exact hne g' hmem
            · simp at hmem
              subst hmem
              simp)
      refine ⟨Q, hQmap, ?_, hQne⟩
      rw [hQjoin]
      simp

/-- After at least one processed chunk with non-empty text, and as long as
every processed chunk is non-empty, `previous_long_text` stays non-empty. -/
theorem foldl_fuse_snd_ne (count : String → Nat) (thr : Nat) :
    ∀ (l : List String) (st : List String × String), st.2 ≠ "" →
      (∀ x ∈ l, x ≠ "") → (List.foldl (fuse_step count thr) st l).2 ≠ ""
  | [], _, hst, _ => hst
  | t :: ts, st, hst, hall => by
    rw [List.foldl_cons]
    refine foldl_fuse_snd_ne count thr ts _ ?_ (fun x hx => hall x (List.mem_cons_of_mem _ hx))
    unfold fuse_step
    split
    · exact hst
    · exact hall t (List.mem_cons_self _ _)

/-- A merging step does not change the number of emitted entries. -/
theorem fuse_step_merge_length (count : String → Nat) (thr : Nat)
    (st : List String × String) (u : String) (hc : count u ≤ thr) (hs : st.2 ≠ "")
    (h1 : st.1 ≠ []) : (fuse_step count thr st u).1.length = st.1.length := by
  unfold fuse_step
  rw [if_pos ⟨hc, hs⟩]
  simp only [List.length_append, List.length_dropLast, List.length_cons, List.length_nil]
  have := List.length_pos.2 h1
  omega

/-- The accumulator of the fusion fold never becomes empty again. -/
theorem foldl_fuse_fst_ne_nil (count : String → Nat) (thr : Nat) :
    ∀ (l : List String) (st : List String × String), st.1 ≠ [] →
      (List.foldl (fuse_step count thr) st l).1 ≠ []
  | [], _, hst => hst
  | t :: ts, st, _ => by
    rw [List.foldl_cons]
    exact foldl_fuse_fst_ne_nil count thr ts _ (fuse_step_fst_ne_nil count thr st t)

/-! ## Claim C2 -/

/-- Claim C2, counterexample: with a session tokenizer assigning `"a"` and
`"b"` a token count at or below the threshold (any real tokenizer does),
the second short chunk IS appended to the short first chunk instead of
being emitted as its own entry: `fuse_texts ["a", "b"]` with threshold 130
yields `["a\n\nb"]`, not `["a", "b"]`. -/
theorem fuse_texts_short_first_merges_cex :
    String.length "a" ≤ 130 ∧ String.length "b" ≤ 130 ∧
    fuse_texts String.length ["a", "b"] 130 = ["a\n\nb"] ∧
    fuse_texts String.length ["a", "b"] 130 ≠ ["a", "b"] :=
  ⟨by decide, by decide, by decide, by decide⟩

/-- Claim C2 (amended): the very first chunk is always emitted standalone
(there is no predecessor), but — contrary to the claim — it does count as a
merge target whenever its text is non-empty, even when its token count is
at or below the threshold: any second chunk at or below the threshold is
appended to it.  (The guard in the code is the Python truthiness of
`previous_long_text`, i.e. non-emptiness of the text, not a comparison with
the threshold.) -/
theorem fuse_texts_first_standalone_and_merge_target :
    (∀ (count : String → Nat) (thr : Nat) (t : String),
      fuse_texts count [t] thr = [t]) ∧
    (∀ (count : String → Nat) (thr : Nat) (t u : String), t ≠ "" → count u ≤ thr →
      fuse_texts count [t, u] thr = [t ++ "\n\n" ++ u]) := by
  constructor
  · intro count thr t
    simp [fuse_texts, fuse_step]
  · intro count thr t u ht hu
    simp [fuse_texts, fuse_step, ht, hu]

/-- Witness for the amended C2 at a concrete input. -/
theorem fuse_texts_first_standalone_and_merge_target_witness :
    fuse_texts String.length ["a", "b"] 130 = ["a" ++ "\n\n" ++ "b"] :=
  fuse_texts_first_standalone_and_merge_target.2 String.length 130 "a" "b"
    (by decide) (by decide)

/-! ## Claim C3 -/

/-- Claim C3, counterexample: for the chunk list `["", "b"]` — non-empty,
every chunk's token count below the threshold (the empty string has zero
tokens under any tokenizer) — `fuse_texts` returns the two-element list
`["", "b"]`, not the one-element join: the empty first chunk is falsy, so
`"b"` is emitted standalone. -/
theorem fuse_texts_all_below_threshold_single_cex :
    String.length "" < 130 ∧ String.length "b" < 130 ∧
    fuse_texts String.length ["", "b"] 130 = ["", "b"] ∧
    fuse_texts String.length ["", "b"] 130 ≠ [joinNN ["", "b"]] :=
  ⟨by decide, by decide, by decide, by decide⟩

/-- Claim C3 (amended: additionally requiring the first chunk's text to be
non-empty): for every chunk list whose first chunk is non-empty and in
which every chunk's token count is below `short_length_threshold`,
`fuse_texts` returns a one-element list whose single element is the
original chunks joined by `"\n\n"` in original order. -/
theorem fuse_texts_all_below_threshold_single (count : String → Nat) (thr : Nat)
    (t : String) (ts : List String) (ht : t ≠ "")
    (hall : ∀ x ∈ t :: ts, count x < thr) :
    fuse_texts count (t :: ts) thr = [joinNN (t :: ts)] := by
  unfold fuse_texts
  rw [List.foldl_cons]
  have hstep : fuse_step count thr ([], "") t = (([] : List String) ++ [t], t) := by
    simp [fuse_step]
  rw [hstep,
    foldl_fuse_merge count thr ts [] t t ht
      (fun x hx => le_of_lt (hall x (List.mem_cons_of_mem _ hx)))]
  simp [joinNN_cons_preJoin]

/-- Witness for the amended C3 at the spec's own example `["a","b","c"]`. -/
theorem fuse_texts_all_below_threshold_single_witness :
    fuse_texts String.length ["a", "b", "c"] 130 = ["a\n\nb\n\nc"] := by
  rw [fuse_texts_all_below_threshold_single String.length 130 "a" ["b", "c"]
    (by decide) (by decide)]
  rfl

/-! ## Claim C8 -/

/-- Claim C8: fusion preserves order and content.  `fuse_texts` realises a
partition of the input into contiguous non-empty groups in original order,
each group joined internally by `"\n\n"`; consequently joining the output
with `"\n\n"` yields exactly the join of the input — nothing is dropped,
duplicated or reordered. -/
theorem fuse_texts_partition_and_join (count : String → Nat) (thr : Nat)
    (L : List String) :
    (∃ P : List (List String), P.flatten = L ∧ (∀ g ∈ P, g ≠ []) ∧
      fuse_texts count L thr = P.map joinNN) ∧
    joinNN (fuse_texts count L thr) = joinNN L := by
  constructor
  · obtain ⟨Q, hmap, hjoin, hne⟩ :=
      foldl_fuse_partition count thr L ([], "") [] (fun _ => rfl) (by simp) (by simp)
    exact ⟨Q, by simpa using hjoin, hne, hmap⟩
  · simpa [fuse_texts] using foldl_fuse_joinNN count thr L ([], "") (fun _ => rfl)

/-! ## Lemmas about the orchestrator loop -/

/-- `chunk_documents` is the flat concatenation, in input order, of each
conversion result's final chunks. -/
theorem chunk_documents_eq_flatten {Doc : Type} (count : String → Nat)
    (chunkFn : Doc → Option (List String)) (split : Nat → String → List String)
    (cwc : Nat) :
    ∀ (parsed : List (ConvResult Doc)) (acc : List String),
      parsed.foldl
        (fun all_chunks conversion_result =>
          let doc := conversion_result.document
          let chunks := match chunkFn doc with
            | some cs => cs
            | none => []
          let fused_texts := fuse_texts count chunks 200
          let num_tokens_per_doc := _num_tokens_from_words cwc
          let chunk_size := _num_chars_from_tokens num_tokens_per_doc
          let final_chunks := chunk_markdowns split fused_texts chunk_size
          all_chunks ++ final_chunks) acc
        = acc ++ (parsed.map (perDocChunks count chunkFn split cwc)).flatten
  | [], acc => by simp
  | cr :: rest, acc => by
    rw [List.foldl_cons, chunk_documents_eq_flatten count chunkFn split cwc rest]
    show acc ++ _ ++ _ = _
    rw [List.map_cons, List.flatten_cons, ← List.append_assoc]
    congr 2
    show chunk_markdowns split (fuse_texts count _ 200) _ = perDocChunks count chunkFn split cwc cr
    unfold perDocChunks
    congr 1
    cases chunkFn cr.document <;> rfl

/-- `chunk_documents` as a flat map over the conversion results. -/
theorem chunk_documents_eq {Doc : Type} (count : String → Nat)
    (chunkFn : Doc → Option (List String)) (split : Nat → String → List String)
    (cwc : Nat) (parsed : List (ConvResult Doc)) :
    chunk_documents count chunkFn split cwc parsed
      = (parsed.map (perDocChunks count chunkFn split cwc)).flatten := by
  rw [chunk_documents, chunk_documents_eq_flatten count chunkFn split cwc parsed []]
  rfl

/-- The counting fold of `export_documents`, from arbitrary counters. -/
theorem export_counts_foldl {Doc : Type} :
    ∀ (docs : List (ConvResult Doc)) (s f : Nat),
      docs.foldl
        (fun counts doc =>
          if doc.status = ConvStatus.SUCCESS then (counts.1 + 1, counts.2)
          else (counts.1, counts.2 + 1)) (s, f)
        = (s + docs.countP (fun d => d.status == ConvStatus.SUCCESS),
           f + docs.countP (fun d => d.status != ConvStatus.SUCCESS))
  | [], s, f => by simp
  | cr :: rest, s, f => by
    rw [List.foldl_cons]
    by_cases h : cr.status = ConvStatus.SUCCESS
    · rw [if_pos h, export_counts_foldl rest (s + 1) f]
      simp only [List.countP_cons, h]
      simp
      omega
    · rw [if_neg h, export_counts_foldl rest s (f + 1)]
      simp only [List.countP_cons]
      simp [h]
      omega

/-! ## Claim C4 -/

/-- Claim C4, counterexample to its universally quantified consequence: in
a document whose raw chunks are `["", "x"]`, the chunk `"x"` has a token
count at most 200 and has a previously emitted chunk (the fused list at
that point is `[""]`), yet it is emitted standalone, because the emptiness
of the previously emitted text makes the Python guard falsy: the document's
final chunks are `["", "x"]`, two entries, nothing merged. -/
theorem chunk_documents_merge_at_200_cex :
    String.length "x" ≤ 200 ∧
    fuse_texts String.length ["", "x"] 200 = ["", "x"] ∧
    chunk_documents String.length (fun _ : Unit => some ["", "x"]) (fun _ s => [s]) 1024
      [⟨ConvStatus.SUCCESS, (), "doc.md"⟩] = ["", "x"] :=
  ⟨by decide, by decide, by decide⟩

/-- Claim C4 (amended): `chunk_documents` calls `fuse_texts` with
`short_length_threshold = 200` — the signature default is 130 — so, for
every document, a raw chunk of at most 200 tokens arriving after
previously emitted chunks is merged into the last emitted chunk rather
than emitted standalone, *provided* the preceding chunks' texts are
non-empty (the merge guard is the Python truthiness of the previously
emitted text, so an empty predecessor disables the merge). -/
theorem chunk_documents_fuses_at_200 :
    (∀ (count : String → Nat) (L : List String),
      fuse_texts count L = fuse_texts count L 130) ∧
    (∀ (Doc : Type) (count : String → Nat) (chunkFn : Doc → Option (List String))
        (split : Nat → String → List String) (cwc : Nat)
        (parsed : List (ConvResult Doc)),
      chunk_documents count chunkFn split cwc parsed
        = (parsed.map (fun cr =>
            chunk_markdowns split (fuse_texts count ((chunkFn cr.document).getD []) 200)
              (_num_chars_from_tokens (_num_tokens_from_words cwc)))).flatten) ∧
    (∀ (count : String → Nat) (t : String) (ts : List String) (u : String),
      t ≠ "" → (∀ x ∈ ts, x ≠ "") → count u ≤ 200 →
      (fuse_texts count (t :: ts ++ [u]) 200).length
        = (fuse_texts count (t :: ts) 200).length) := by
  refine ⟨fun _ _ => rfl, fun Doc count chunkFn split cwc parsed => chunk_documents_eq count chunkFn split cwc parsed, ?_⟩
  intro count t ts u ht hts hu
  unfold fuse_texts
  rw [show t :: ts ++ [u] = (t :: ts) ++ [u] from rfl, List.foldl_append]
  have hfirst : fuse_step count 200 ([], "") t = ([t], t) := by
    simp [fuse_step]
  have hsnd : (List.foldl (fuse_step count 200) ([], "") (t :: ts)).2 ≠ "" := by
    rw [List.foldl_cons, hfirst]
    exact foldl_fuse_snd_ne count 200 ts ([t], t) ht hts
  have hfst : (List.foldl (fuse_step count 200) ([], "") (t :: ts)).1 ≠ [] := by
    rw [List.foldl_cons, hfirst]
    exact foldl_fuse_fst_ne_nil count 200 ts ([t], t) (by simp)
  rw [List.foldl_cons, List.foldl_nil]
  exact fuse_step_merge_length count 200 _ u hu hsnd hfst

set_option maxRecDepth 8192 in
/-- Witness for the amended C4: a 150-token chunk (over the signature
default 130, at most 200) following a non-empty chunk is merged, not
emitted standalone. -/
theorem chunk_documents_fuses_at_200_witness :
    (fuse_texts (fun s => s.length) ("a" :: [] ++ [String.mk (List.replicate 150 'x')]) 200).length
      = (fuse_texts (fun s => s.length) ["a"] 200).length :=
  chunk_documents_fuses_at_200.2.2 (fun s => s.length) "a" [] (String.mk (List.replicate 150 'x'))
    (by decide) (by simp) (by decide)

/-! ## Claim C6 -/

/-- Claim C6: if hybrid chunking raises for one document (modelled by
`chunkFn` returning `none`, the `except` branch of the loop), that document
contributes exactly zero final chunks, the remaining documents are
processed unchanged, and the returned sequence is the concatenation of the
other documents' final chunks — the exception is absorbed, never surfaced
(the embedding of `chunk_documents` is a total function). -/
theorem chunk_documents_absorbs_chunking_exception (Doc : Type) (count : String → Nat)
    (chunkFn : Doc → Option (List String)) (split : Nat → String → List String)
    (cwc : Nat) (pre post : List (ConvResult Doc)) (cr : ConvResult Doc)
    (hraise : chunkFn cr.document = none) :
    chunk_documents count chunkFn split cwc (pre ++ cr :: post)
      = chunk_documents count chunkFn split cwc pre
        ++ chunk_documents count chunkFn split cwc post ∧
    perDocChunks count chunkFn split cwc cr = [] := by
  have hzero : perDocChunks count chunkFn split cwc cr = [] := by
    unfold perDocChunks
    rw [hraise]
    rfl
  refine ⟨?_, hzero⟩
  rw [chunk_documents_eq, chunk_documents_eq, chunk_documents_eq]
  simp [hzero]

/-- Witness for C6: three documents, the middle one raising during
chunking; the output is that of the first and third only. -/
theorem chunk_documents_absorbs_chunking_exception_witness :
    chunk_documents String.length
        (fun d : String => if d = "bad" then none else some [d]) (fun _ s => [s]) 1024
        ([⟨ConvStatus.SUCCESS, "good1", "1.md"⟩]
          ++ ⟨ConvStatus.SUCCESS, "bad", "bad.md"⟩ :: [⟨ConvStatus.SUCCESS, "good2", "2.md"⟩])
      = chunk_documents String.length
          (fun d : String => if d = "bad" then none else some [d]) (fun _ s => [s]) 1024
          [⟨ConvStatus.SUCCESS, "good1", "1.md"⟩]
        ++ chunk_documents String.length
            (fun d : String => if d = "bad" then none else some [d]) (fun _ s => [s]) 1024
            [⟨ConvStatus.SUCCESS, "good2", "2.md"⟩] ∧
    perDocChunks String.length (fun d : String => if d = "bad" then none else some [d])
        (fun _ s => [s]) 1024 ⟨ConvStatus.SUCCESS, "bad", "bad.md"⟩ = [] :=
  chunk_documents_absorbs_chunking_exception String String.length
    (fun d : String => if d = "bad" then none else some [d]) (fun _ s => [s]) 1024
    [⟨ConvStatus.SUCCESS, "good1", "1.md"⟩] [⟨ConvStatus.SUCCESS, "good2", "2.md"⟩]
    ⟨ConvStatus.SUCCESS, "bad", "bad.md"⟩ (by decide)

/-! ## Claim C1 -/

/-- Claim C1, counterexample: `chunk_documents` iterates over *all*
conversion results without inspecting their status.  A batch of two
results, the second with `FAILURE` status, produces the chunks of both
documents (here with a hybrid-chunker model that serialises whatever
document object the failed result carries): the failed document
contributes a chunk, it is not excluded from the chunking stages. -/
theorem chunk_documents_failure_not_excluded_cex :
    chunk_documents String.length (fun d : String => some [d]) (fun _ s => [s]) 1024
        [⟨ConvStatus.SUCCESS, "alpha", "a.md"⟩, ⟨ConvStatus.FAILURE, "beta", "b.md"⟩]
      = ["alpha", "beta"] ∧
    (["alpha", "beta"] : List String) ≠ ["alpha"] :=
  ⟨by decide, by decide⟩

/-- Claim C1 (amended): `chunk_documents` never reads the conversion
status — its output is invariant under arbitrary rewrites of the status
fields, every conversion result's document (also a `FAILURE` one) is fed
into the Hybrid Chunker / Fusion / Re-splitter stages; the aggregate
success/failure counts are computed by `export_documents` — which
`chunk_documents` does not invoke — as the number of `SUCCESS` and of
non-`SUCCESS` results respectively. -/
theorem chunk_documents_status_blind_and_export_counts :
    (∀ (Doc : Type) (count : String → Nat) (chunkFn : Doc → Option (List String))
        (split : Nat → String → List String) (cwc : Nat)
        (parsed : List (ConvResult Doc)) (f : ConvResult Doc → ConvStatus),
      chunk_documents count chunkFn split cwc
          (parsed.map (fun cr => ⟨f cr, cr.document, cr.file⟩))
        = chunk_documents count chunkFn split cwc parsed) ∧
    (∀ (Doc : Type) (docs : List (ConvResult Doc)),
      export_counts docs
        = (docs.countP (fun d => d.status == ConvStatus.SUCCESS),
           docs.countP (fun d => d.status != ConvStatus.SUCCESS))) := by
  constructor
  · intro Doc count chunkFn split cwc parsed f
    rw [chunk_documents_eq, chunk_documents_eq, List.map_map]
    rfl
  · intro Doc docs
    rw [export_counts, export_counts_foldl docs 0 0]
    simp

/-! ## Lemmas about the re-splitter loop -/

/-- `chunk_markdowns` as a flat map over the fused chunks. -/
theorem chunk_markdowns_eq_flatten (split : Nat → String → List String)
    (chunk_size : Nat) :
    ∀ (documents : List String) (acc : List String),
      documents.foldl (fun content docs => content ++ split chunk_size (cleanTable docs)) acc
        = acc ++ (documents.map (fun d => split chunk_size (cleanTable d))).flatten
  | [], acc => by simp
  | d :: rest, acc => by
    rw [List.foldl_cons, chunk_markdowns_eq_flatten split chunk_size rest]
    simp

theorem chunk_markdowns_eq (split : Nat → String → List String)
    (documents : List String) (chunk_size : Nat) :
    chunk_markdowns split documents chunk_size
      = (documents.map (fun d => split chunk_size (cleanTable d))).flatten := by
  rw [chunk_markdowns, chunk_markdowns_eq_flatten split chunk_size documents []]
  rfl

/-! ## The fuel-bounded logarithm is the binary logarithm -/

/-- `log2Fuel` satisfies the defining inequalities of `⌊log₂·⌋` whenever the
fuel dominates the input. -/
theorem log2Fuel_spec :
    ∀ (fuel n : Nat), 1 ≤ n → n < 2 ^ fuel →
      2 ^ log2Fuel fuel n ≤ n ∧ n < 2 ^ (log2Fuel fuel n + 1)
  | 0, n, h1, h2 => by simp at h2; omega
  | fuel + 1, n, h1, h2 => by
    rw [log2Fuel]
    by_cases h : 2 ≤ n
    · rw [if_pos h]
      have hdiv1 : 1 ≤ n / 2 := (Nat.one_le_div_iff (by norm_num)).2 h
      have hdiv2 : n / 2 < 2 ^ fuel := by
        rw [Nat.div_lt_iff_lt_mul (by norm_num)]
        calc n < 2 ^ (fuel + 1) := h2
        _ = 2 ^ fuel * 2 := by rw [pow_succ]
      obtain ⟨ha, hb⟩ := log2Fuel_spec fuel (n / 2) hdiv1 hdiv2
      constructor
      · calc 2 ^ (log2Fuel fuel (n / 2) + 1) = 2 ^ log2Fuel fuel (n / 2) * 2 := by
              rw [pow_succ]
        _ ≤ n / 2 * 2 := by omega
        _ ≤ n := Nat.div_mul_le_self n 2
      · have hup : n < (n / 2 + 1) * 2 := by
          have h01 := Nat.div_add_mod n 2
          have h02 : n % 2 < 2 := Nat.mod_lt n (by norm_num)
          omega
        calc n < (n / 2 + 1) * 2 := hup
        _ ≤ 2 ^ (log2Fuel fuel (n / 2) + 1) * 2 := by omega
        _ = 2 ^ (log2Fuel fuel (n / 2) + 1 + 1) := by rw [← pow_succ]
    · rw [if_neg h]
      constructor
      · simpa using h1
      · simpa using Nat.lt_of_not_le (by simpa using h)

/-- The interval characterisation pins `floorLog2` uniquely. -/
theorem floorLog2_eq_of {n k : Nat} (h1 : 2 ^ k ≤ n) (h2 : n < 2 ^ (k + 1))
    (hbig : n < 2 ^ 1200) : floorLog2 n = k := by
  have hn : 1 ≤ n := le_trans (Nat.one_le_two_pow) h1
  obtain ⟨ha, hb⟩ : 2 ^ floorLog2 n ≤ n ∧ n < 2 ^ (floorLog2 n + 1) :=
    log2Fuel_spec 1200 n hn hbig
  rcases Nat.lt_trichotomy (floorLog2 n) k with hlt | heq | hgt
  · have hc : n < 2 ^ k :=
      lt_of_lt_of_le hb (Nat.pow_le_pow_right (by norm_num) (by omega))
    exact absurd h1 (Nat.not_le.2 hc)
  · exact heq
  · have hc : 2 ^ (k + 1) ≤ 2 ^ floorLog2 n :=
      Nat.pow_le_pow_right (by norm_num) (by omega)
    exact absurd (lt_of_lt_of_le (lt_of_lt_of_le h2 hc) ha) (lt_irrefl n)

/-- Sanity: on its domain of correctness `floorLog2` agrees with the
library's `Nat.log2`. -/
theorem floorLog2_eq_log2 {n : Nat} (h1 : 1 ≤ n) (hbig : n < 2 ^ 1200) :
    floorLog2 n = Nat.log2 n := by
  obtain ⟨ha, hb⟩ : 2 ^ floorLog2 n ≤ n ∧ n < 2 ^ (floorLog2 n + 1) :=
    log2Fuel_spec 1200 n h1 hbig
  have hn : n ≠ 0 := by omega
  have hc : Nat.log2 n < floorLog2 n + 1 := (Nat.log2_lt hn).2 hb
  have hd : ¬ Nat.log2 n < floorLog2 n :=
    fun hlt => absurd ((Nat.log2_lt hn).1 hlt) (Nat.not_lt.2 ha)
  omega

theorem roundDoubleSig_small {W : Nat} (h : W < 2 ^ 53) : roundDoubleSig W = W := by
  unfold roundDoubleSig
  rw [if_pos h]

/-- The rounded value never drops below the truncation to the kept
precision, and it differs from the exact value by at most half an ulp
(`2 ^ (s - 1)` in integer units, `s = floorLog2 W - 52`). -/
theorem roundDoubleSig_bounds {W : Nat} (h53 : ¬ W < 2 ^ 53)
    (hs1 : 1 ≤ floorLog2 W - 52) :
    W / 2 ^ (floorLog2 W - 52) * 2 ^ (floorLog2 W - 52) ≤ roundDoubleSig W ∧
    roundDoubleSig W ≤ W + 2 ^ (floorLog2 W - 52 - 1) ∧
    W ≤ roundDoubleSig W + 2 ^ (floorLog2 W - 52 - 1) := by
  simp only [roundDoubleSig]
  rw [if_neg h53]
  set s := floorLog2 W - 52 with hs
  set q := W / 2 ^ s with hq
  set r := W % 2 ^ s with hr
  have hqr : 2 ^ s * q + r = W := Nat.div_add_mod W (2 ^ s)
  have hrlt : r < 2 ^ s := Nat.mod_lt W (pow_pos (by norm_num) s)
  have hhalf : 2 ^ (s - 1) + 2 ^ (s - 1) = 2 ^ s := by
    have h1 : s - 1 + 1 = s := by omega
    calc 2 ^ (s - 1) + 2 ^ (s - 1) = 2 ^ (s - 1) * 2 := by ring
    _ = 2 ^ (s - 1 + 1) := (pow_succ 2 (s - 1)).symm
    _ = 2 ^ s := by rw [h1]
  have hsucc : (q + 1) * 2 ^ s = q * 2 ^ s + 2 ^ s := by ring
  have hqq : q * 2 ^ s = 2 ^ s * q := by ring
  split_ifs with h1 h2 h3 <;> refine ⟨?_, ?_, ?_⟩ <;> omega

/-- The character budget used by `chunk_documents` for the default
`chunk_word_count = 1024`: `int(1024 * 1.3) = 1331` tokens (the double
product `1331.2000000000000454…` truncates to 1331) and `1331 * 4 = 5324`
characters. -/
theorem default_char_budget :
    _num_chars_from_tokens (_num_tokens_from_words 1024) = 5324 := by
  decide

/-! ## Claim C5 -/

/-- Claim C5: with the splitter honouring its spec contract (every piece is
within the requested character budget unless it is a degenerate oversized
atomic piece), every final chunk produced by the pipeline has character
length at most `_num_chars_from_tokens (_num_tokens_from_words
chunk_word_count)` or is such an atomic piece; for the default
`chunk_word_count = 1024` that budget is exactly 5324 characters. -/
theorem chunk_markdowns_char_budget :
    _num_chars_from_tokens (_num_tokens_from_words 1024) = 5324 ∧
    (∀ (split : Nat → String → List String) (atomic : String → Prop),
      RespectsCharBudget split atomic →
      ∀ (Doc : Type) (count : String → Nat) (chunkFn : Doc → Option (List String))
        (cwc : Nat) (parsed : List (ConvResult Doc)) (c : String),
        c ∈ chunk_documents count chunkFn split cwc parsed →
        c.length ≤ _num_chars_from_tokens (_num_tokens_from_words cwc) ∨ atomic c) := by
  constructor
  · exact default_char_budget
  · intro split atomic hsplit Doc count chunkFn cwc parsed c hc
    rw [chunk_documents_eq] at hc
    obtain ⟨l, hl, hcl⟩ := List.mem_flatten.1 hc
    obtain ⟨cr, _, rfl⟩ := List.mem_map.1 hl
    rw [perDocChunks, chunk_markdowns_eq] at hcl
    obtain ⟨l', hl', hcl'⟩ := List.mem_flatten.1 hcl
    obtain ⟨d, _, rfl⟩ := List.mem_map.1 hl'
    exact hsplit _ _ c hcl'

/-- Witness for C5 with a concrete budget-honouring splitter (truncation to
the budget) on a concrete batch. -/
theorem chunk_markdowns_char_budget_witness :
    String.length "hello" ≤ _num_chars_from_tokens (_num_tokens_from_words 1024)
      ∨ False :=
  chunk_markdowns_char_budget.2 (fun cs s => [String.mk (s.data.take cs)])
    (fun _ => False)
    (fun cs s p hp => by
      rw [List.mem_singleton] at hp
      subst hp
      left
      show (List.take cs s.data).length ≤ cs
      rw [List.length_take]
      exact min_le_left _ _)
    Unit String.length (fun _ => some ["hello"]) 1024
    [⟨ConvStatus.SUCCESS, (), "d.md"⟩] "hello" (by decide)

/-! ## Lemmas about construction-time validation -/

/-- If some path's extension is unsupported, the grouping loop raises
`UnsupportedFileType` (for the first unsupported extension it meets). -/
theorem splitDocsAux_error :
    ∀ (paths : List DocPath) (dict : List (String × List DocPath)),
      (∃ p ∈ paths, p.suffix ∉ SUPPORTED_FILETYPES) →
      ∃ ext, splitDocsAux dict paths = .error (.UnsupportedFileType ext) ∧
        ext ∉ SUPPORTED_FILETYPES
  | [], _, h => absurd h (by simp)
  | q :: rest, dict, h => by
    by_cases hq : q.suffix ∈ SUPPORTED_FILETYPES
    · obtain ⟨p, hp, hpext⟩ := h
      have hpr : p ∈ rest := by
        rcases List.mem_cons.1 hp with rfl | hmem
        · exact absurd hq hpext
        · exact hmem
      rw [splitDocsAux, if_pos hq]
      exact splitDocsAux_error rest (addToDict dict q.suffix q) ⟨p, hpr, hpext⟩
    · exact ⟨q.suffix, by rw [splitDocsAux, if_neg hq], hq⟩

/-- Keys already present, and the inserted key, survive `addToDict`. -/
theorem addToDict_keys :
    ∀ (dict : List (String × List DocPath)) (ft : String) (p : DocPath) (s : String),
      (s ∈ dict.map Prod.fst ∨ s = ft) → s ∈ (addToDict dict ft p).map Prod.fst
  | [], ft, p, s, hs => by
    rcases hs with hs | hs
    · simp at hs
    · simp [addToDict, hs]
  | (k, ps) :: rest, ft, p, s, hs => by
    have hstep : addToDict ((k, ps) :: rest) ft p
        = if k = ft then (k, ps ++ [p]) :: rest else (k, ps) :: addToDict rest ft p := rfl
    rw [hstep]
    by_cases hk : k = ft
    · rw [if_pos hk]
      rcases hs with hs | hs
      · simpa using hs
      · simp [hs, hk]
    · rw [if_neg hk]
      rcases hs with hs | hs
      · have hs' : s = k ∨ s ∈ rest.map Prod.fst := by simpa using hs
        rcases hs' with hs' | hs'
        · simp [hs']
        · simp only [List.map_cons, List.mem_cons]
          exact Or.inr (addToDict_keys rest ft p s (Or.inl hs'))
      · simp only [List.map_cons, List.mem_cons]
        exact Or.inr (addToDict_keys rest ft p s (Or.inr hs))

/-- If every path's extension is supported, the grouping loop succeeds and
the resulting dict's keys cover the initial keys and every suffix seen. -/
theorem splitDocsAux_ok_keys :
    ∀ (paths : List DocPath) (dict : List (String × List DocPath)),
      (∀ r ∈ paths, r.suffix ∈ SUPPORTED_FILETYPES) →
      ∃ dict', splitDocsAux dict paths = .ok dict' ∧
        ∀ s, (s ∈ dict.map Prod.fst ∨ s ∈ paths.map DocPath.suffix) →
          s ∈ dict'.map Prod.fst
  | [], dict, _ => ⟨dict, rfl, fun s hs => by
      rcases hs with hs | hs
      · exact hs
      · simp at hs⟩
  | q :: rest, dict, hall => by
    have hq : q.suffix ∈ SUPPORTED_FILETYPES := hall q (List.mem_cons_self _ _)
    obtain ⟨dict', hok, hkeys⟩ :=
      splitDocsAux_ok_keys rest (addToDict dict q.suffix q)
        (fun r hr => hall r (List.mem_cons_of_mem _ hr))
    refine ⟨dict', by rw [splitDocsAux, if_pos hq]; exact hok, ?_⟩
    intro s hs
    rcases hs with hs | hs
    · exact hkeys s (Or.inl (addToDict_keys dict q.suffix q s (Or.inl hs)))
    · rcases List.mem_map.1 hs with ⟨r, hr, rfl⟩
      rcases List.mem_cons.1 hr with rfl | hr'
      · exact hkeys r.suffix (Or.inl (addToDict_keys dict r.suffix r _ (Or.inr rfl)))
      · exact hkeys r.suffix (Or.inr (List.mem_map_of_mem DocPath.suffix hr'))

/-- Reduction of `DocumentChunker_init` on a non-empty path list. -/
theorem DocumentChunker_init_cons (q : DocPath) (rest : List DocPath) :
    DocumentChunker_init (q :: rest)
      = match splitDocsAux [] (q :: rest) with
        | .error e => ([], .error e)
        | .ok document_dict =>
          if 1 < document_dict.length then ([], .error .MixedDocumentTypes)
          else match document_dict with
            | [] => ([], .error .EmptyDocumentSet)
            | (ft, ps) :: _ =>
              ([InitEffect.InitConverter, InitEffect.LoadTokenizer], .ok (ft, ps)) := rfl

/-- A list containing two distinct elements has length greater than one. -/
theorem one_lt_length_of_two_mem {α : Type} {l : List α} {a b : α}
    (ha : a ∈ l) (hb : b ∈ l) (hab : a ≠ b) : 1 < l.length := by
  match l with
  | [] => exact absurd ha (List.not_mem_nil a)
  | [x] =>
    rw [List.mem_singleton] at ha hb
    exact absurd (ha.trans hb.symm) hab
  | x :: y :: rest => simp [Nat.lt_of_sub_eq_succ]

/-! ## Claim C7 -/

/-- Claim C7: `DocumentChunker` construction fails on an empty document
list (`EmptyDocumentSet`, i.e. `ValueError("Provided empty list of
documents")`), on any path with an extension outside `{.pdf, .md}`
(`UnsupportedFileType`, i.e. `ValueError("Provided unsupported filetype
…")`), and on otherwise-supported paths carrying more than one distinct
extension (`MixedDocumentTypes`, i.e. `ValueError("Provided multiple
document types")`) — and in each case the effect trace is empty: neither
`_init_docling_converter` (model download / conversion setup) nor
`create_tokenizer` (model loading) is ever reached, so no conversion
attempt, model loading or network activity is triggered. -/
theorem DocumentChunker_init_validation :
    (DocumentChunker_init [] = ([], .error .EmptyDocumentSet)) ∧
    (∀ (paths : List DocPath) (p : DocPath), p ∈ paths →
      p.suffix ∉ SUPPORTED_FILETYPES →
      ∃ ext, DocumentChunker_init paths = ([], .error (.UnsupportedFileType ext)) ∧
        ext ∉ SUPPORTED_FILETYPES) ∧
    (∀ (paths : List DocPath) (p q : DocPath), p ∈ paths → q ∈ paths →
      p.suffix ≠ q.suffix → (∀ r ∈ paths, r.suffix ∈ SUPPORTED_FILETYPES) →
      DocumentChunker_init paths = ([], .error .MixedDocumentTypes)) := by
  refine ⟨rfl, ?_, ?_⟩
  · intro paths p hp hpext
    obtain ⟨ext, herr, hext⟩ := splitDocsAux_error paths [] ⟨p, hp, hpext⟩
    refine ⟨ext, ?_, hext⟩
    obtain ⟨q, rest, rfl⟩ := List.exists_cons_of_ne_nil (List.ne_nil_of_mem hp)
    rw [DocumentChunker_init_cons, herr]
  · intro paths p q hp hq hpq hall
    obtain ⟨dict', hok, hkeys⟩ := splitDocsAux_ok_keys paths [] hall
    have hlen : 1 < dict'.length := by
      have h1 : p.suffix ∈ dict'.map Prod.fst :=
        hkeys p.suffix (Or.inr (List.mem_map_of_mem DocPath.suffix hp))
      have h2 : q.suffix ∈ dict'.map Prod.fst :=
        hkeys q.suffix (Or.inr (List.mem_map_of_mem DocPath.suffix hq))
      have := one_lt_length_of_two_mem h1 h2 hpq
      rwa [List.length_map] at this
    obtain ⟨r, rest, rfl⟩ := List.exists_cons_of_ne_nil (List.ne_nil_of_mem hp)
    rw [DocumentChunker_init_cons, hok]
    simp [hlen]

/-- Witness for C7: the spec's own mixed-extension example and a concrete
unsupported extension, each rejected with an empty effect trace. -/
theorem DocumentChunker_init_validation_witness :
    DocumentChunker_init [⟨".pdf"⟩, ⟨".md"⟩] = ([], .error .MixedDocumentTypes) :=
  DocumentChunker_init_validation.2.2 [⟨".pdf"⟩, ⟨".md"⟩] ⟨".pdf"⟩ ⟨".md"⟩
    (by decide) (by decide) (by decide) (by decide)

/-! ## Lemmas about the markdown-table regex cleanup -/

/-- Scanning a run of the pattern character only increments the pending
counter. -/
theorem scan_replicate_same (d : Char) :
    ∀ (p : Nat) (l : List Char) (q : Nat),
      hasMatchAux d q (List.replicate p d ++ l) = hasMatchAux d (q + p) l
  | 0, l, q => by simp
  | p + 1, l, q => by
    rw [List.replicate_succ, List.cons_append, hasMatchAux, if_pos rfl,
      scan_replicate_same d p l (q + 1)]
    congr 1
    omega

/-- Scanning a non-empty run of a different, non-pipe character resets the
pending counter. -/
theorem scan_replicate_other {d b : Char} (hbd : b ≠ d) (hb : b ≠ '|') :
    ∀ (p : Nat) (l : List Char) (q : Nat), 1 ≤ p →
      hasMatchAux d q (List.replicate p b ++ l) = hasMatchAux d 0 l
  | 0, _, _, h => absurd h (by norm_num)
  | 1, l, q, _ => by
    rw [show (List.replicate 1 b : List Char) ++ l = b :: l from rfl, hasMatchAux,
      if_neg hbd, if_neg (fun h => hb h.1)]
  | p + 2, l, q, _ => by
    rw [List.replicate_succ, List.cons_append, hasMatchAux, if_neg hbd,
      if_neg (fun h => hb h.1)]
    exact scan_replicate_other hbd hb (p + 1) l 0 (by omega)

/-- If the pattern no longer matches, the collapse pass is the identity
(it only flushes its pending characters back). -/
theorem collapseAux_id_of_no_match {d : Char} :
    ∀ (l : List Char) (p : Nat), hasMatchAux d p l = false →
      collapseAux d p l = List.replicate p d ++ l
  | [], p, _ => by simp [collapseAux]
  | c :: rest, p, hm => by
    by_cases hc : c = d
    · subst hc
      rw [hasMatchAux, if_pos rfl] at hm
      rw [collapseAux, if_pos rfl, collapseAux_id_of_no_match rest (p + 1) hm]
      simp [List.replicate_succ', List.append_assoc]
    · by_cases hcp : c = '|' ∧ 2 ≤ p
      · rw [hasMatchAux, if_neg hc, if_pos hcp] at hm
        exact absurd hm (by simp)
      · rw [hasMatchAux, if_neg hc, if_neg hcp] at hm
        rw [collapseAux, if_neg hc, if_neg hcp,
          collapseAux_id_of_no_match rest 0 hm]
        simp

/-- After one collapse pass the pattern no longer matches. -/
theorem collapseAux_no_match {d : Char} (hd : d ≠ '|') :
    ∀ (l : List Char) (p : Nat), hasMatchAux d 0 (collapseAux d p l) = false
  | [], p => by
    rw [collapseAux, show (List.replicate p d : List Char) = List.replicate p d ++ [] by simp,
      scan_replicate_same d p [] 0]
    rfl
  | c :: rest, p => by
    by_cases hc : c = d
    · subst hc
      rw [collapseAux, if_pos rfl]
      exact collapseAux_no_match hd rest (p + 1)
    · by_cases hcp : c = '|' ∧ 2 ≤ p
      · rw [collapseAux, if_neg hc, if_pos hcp, hasMatchAux, if_pos rfl,
          hasMatchAux, if_neg (fun h => hd h.symm), if_neg (by omega)]
        exact collapseAux_no_match hd rest 0
      · rw [collapseAux, if_neg hc, if_neg hcp,
          scan_replicate_same d p (c :: collapseAux d 0 rest) 0, hasMatchAux,
          if_neg hc, if_neg (by simpa using hcp)]
        exact collapseAux_no_match hd rest 0

/-- A collapse pass for one character does not create matches of the other
pattern: it only deletes copies of `b` inside runs ending in `b|`, and the
character left before the pipe is `b`, not `d`. -/
theorem collapseAux_preserves_no_match {b d : Char} (hbd : b ≠ d) (hb : b ≠ '|')
    (hd : d ≠ '|') :
    ∀ (l : List Char) (p q : Nat),
      hasMatchAux d q (List.replicate p b ++ l) = false →
      hasMatchAux d q (collapseAux b p l) = false
  | [], p, q, hm => by
    rw [collapseAux]
    simpa using hm
  | c :: rest, p, q, hm => by
    by_cases hc : c = b
    · subst hc
      rw [collapseAux, if_pos rfl]
      refine collapseAux_preserves_no_match hbd hb hd rest (p + 1) q ?_
      rw [show List.replicate (p + 1) c ++ rest = List.replicate p c ++ c :: rest by
        simp [List.replicate_succ', List.append_assoc]]
      exact hm
    · by_cases hcp : c = '|' ∧ 2 ≤ p
      · rw [collapseAux, if_neg hc, if_pos hcp]
        rw [scan_replicate_other hbd hb p (c :: rest) q (by omega), hcp.1, hasMatchAux,
          if_neg (fun h => hd h.symm), if_neg (by omega)] at hm
        rw [show (b :: '|' :: collapseAux b 0 rest : List Char)
            = List.replicate 1 b ++ '|' :: collapseAux b 0 rest from rfl,
          scan_replicate_other hbd hb 1 _ q (by omega), hasMatchAux,
          if_neg (fun h => hd h.symm), if_neg (by omega)]
        exact collapseAux_preserves_no_match hbd hb hd rest 0 0 hm
      · rw [collapseAux, if_neg hc, if_neg hcp]
        match p with
        | 0 =>
          rw [List.replicate, List.nil_append] at hm ⊢
          by_cases hcd : c = d
          · rw [hasMatchAux, if_pos hcd] at hm ⊢
            exact collapseAux_preserves_no_match hbd hb hd rest 0 (q + 1) hm
          · by_cases hcq : c = '|' ∧ 2 ≤ q
            · rw [hasMatchAux, if_neg hcd, if_pos hcq] at hm
              exact absurd hm (by simp)
            · rw [hasMatchAux, if_neg hcd, if_neg hcq] at hm ⊢
              exact collapseAux_preserves_no_match hbd hb hd rest 0 0 hm
        | p' + 1 =>
          rw [scan_replicate_other hbd hb (p' + 1) (c :: rest) q (by omega)] at hm
          rw [scan_replicate_other hbd hb (p' + 1) _ q (by omega)]
          by_cases hcd : c = d
          · rw [hasMatchAux, if_pos hcd] at hm ⊢
            exact collapseAux_preserves_no_match hbd hb hd rest 0 1 hm
          · by_cases hcq : c = '|' ∧ (2 : Nat) ≤ 0
            · exact absurd hcq (by omega)
            · rw [hasMatchAux, if_neg hcd, if_neg hcq] at hm ⊢
              exact collapseAux_preserves_no_match hbd hb hd rest 0 0 hm

/-! ## Claim C9 -/

/-- Claim C9: the markdown-table regex cleanup — collapsing runs of two or
more dashes before a pipe to a single dash, then runs of two or more spaces
before a pipe to a single space — is idempotent: applying the two
substitutions twice yields exactly the result of applying them once; and on
the spec's example, `"---|"` cleans to `"-|"`, which is a fixed point. -/
theorem cleanTable_idempotent :
    (∀ s : String, cleanTable (cleanTable s) = cleanTable s) ∧
    cleanTable "---|" = "-|" ∧ cleanTable "-|" = "-|" := by
  refine ⟨?_, by decide, by decide⟩
  intro s
  unfold cleanTable
  show String.mk (collapseRuns ' ' (collapseRuns '-' (collapseRuns ' ' (collapseRuns '-' s.data)))) = _
  have hdash : hasMatchAux '-' 0 (collapseRuns '-' s.data) = false :=
    collapseAux_no_match (by decide) s.data 0
  have hdash2 : hasMatchAux '-' 0 (collapseRuns ' ' (collapseRuns '-' s.data)) = false :=
    collapseAux_preserves_no_match (by decide) (by decide) (by decide)
      (collapseRuns '-' s.data) 0 0 hdash
  have h1 : collapseRuns '-' (collapseRuns ' ' (collapseRuns '-' s.data))
      = collapseRuns ' ' (collapseRuns '-' s.data) := by
    rw [collapseRuns, collapseAux_id_of_no_match _ 0 hdash2]
    rfl
  have hspace : hasMatchAux ' ' 0 (collapseRuns ' ' (collapseRuns '-' s.data)) = false :=
    collapseAux_no_match (by decide) (collapseRuns '-' s.data) 0
  have h2 : collapseRuns ' ' (collapseRuns ' ' (collapseRuns '-' s.data))
      = collapseRuns ' ' (collapseRuns '-' s.data) := by
    rw [collapseRuns, collapseAux_id_of_no_match _ 0 hspace]
    rfl
  rw [h1, h2]

/-! ## Claim C10 -/

set_option maxRecDepth 100000 in
/-- Claim C10, counterexample: `_num_tokens_from_words` computes
`int(num_words * 1.3)` in IEEE-754 double arithmetic, and for the word
count `w = 1732153702834813` (≈ `2 ^ 50.6`, so exactly convertible to
double) the rounded product lands on the next ulp above `13w/10 + 0.9385`,
giving `2251799813685257` instead of `⌊w · 1.3⌋ = 2251799813685256` — the
claim's equality fails.  (CPython: `int(1732153702834813*1.3)` is
`2251799813685257`.) -/
theorem tokens_from_words_floor_cex :
    _num_tokens_from_words 1732153702834813 = 2251799813685257 ∧
    13 * 1732153702834813 / 10 = 2251799813685256 ∧
    (2251799813685257 : Nat) ≠ 2251799813685256 :=
  ⟨by decide, by decide, by decide⟩

/-- Claim C10 (amended: the token estimate matches `⌊w * 1.3⌋` for every
word count up to `2 ^ 49` — far beyond any realistic document — while for
astronomically large `w` the floating-point rounding of `w * 1.3` can land
on a neighbouring integer; the character estimate is exact integer
arithmetic, `⌊t * 4⌋ = 4t`, for every `t`). -/
theorem tokens_and_chars_estimator :
    (∀ w : Nat, w ≤ 2 ^ 49 → _num_tokens_from_words w = 13 * w / 10) ∧
    (∀ t : Nat, _num_chars_from_tokens t = 4 * t) := by
  constructor
  · intro w hw
    rcases w with _ | w'
    · decide
    rcases w' with _ | w''
    · decide
    have hw2 : 2 ≤ w'' + 2 := by omega
    set w := w'' + 2 with hwdef
    have hr_small : roundDoubleSig w = w :=
      roundDoubleSig_small (lt_of_le_of_lt hw (by norm_num))
    unfold _num_tokens_from_words
    rw [hr_small, show (2 : Nat) ^ 52 = 4503599627370496 from by norm_num]
    set W := w * onePointThreeSig with hWdef
    have h10W : 10 * W = 58546795155816450 * w := by
      rw [hWdef, onePointThreeSig]
      ring
    have hW53 : ¬ W < 2 ^ 53 := by
      have h2m : 2 * onePointThreeSig ≤ W := by
        rw [hWdef]
        exact Nat.mul_le_mul_right _ hw2
      rw [onePointThreeSig] at h2m
      norm_num
      omega
    have hW1 : 1 ≤ W := by
      have : (2 : Nat) ^ 53 ≤ W := Nat.not_lt.1 hW53
      omega
    have hW102 : W < 2 ^ 102 := by
      have hle : W ≤ 2 ^ 49 * onePointThreeSig := by
        rw [hWdef]
        exact Nat.mul_le_mul_right _ hw
      rw [onePointThreeSig] at hle
      norm_num at hle ⊢
      omega
    obtain ⟨hka, hkb⟩ : 2 ^ floorLog2 W ≤ W ∧ W < 2 ^ (floorLog2 W + 1) :=
      log2Fuel_spec 1200 W hW1 (lt_trans hW102 (by norm_num))
    have hk53 : 53 ≤ floorLog2 W := by
      by_contra hcon
      push_neg at hcon
      have : W < 2 ^ 53 :=
        lt_of_lt_of_le hkb (Nat.pow_le_pow_right (by norm_num) (by omega))
      exact hW53 this
    have hk101 : floorLog2 W ≤ 101 := by
      by_contra hcon
      push_neg at hcon
      have h2102 : (2 : Nat) ^ 102 ≤ W :=
        le_trans (Nat.pow_le_pow_right (by norm_num) (by omega)) hka
      omega
    obtain ⟨hlo, hup, hdown⟩ := roundDoubleSig_bounds hW53 (by omega)
    have hPle : 2 ^ (floorLog2 W - 52 - 1) ≤ 281474976710656 := by
      calc (2 : Nat) ^ (floorLog2 W - 52 - 1) ≤ 2 ^ 48 :=
            Nat.pow_le_pow_right (by norm_num) (by omega)
      _ = 281474976710656 := by norm_num
    set N := 13 * w / 10 with hNdef
    set f := 13 * w % 10 with hfdef
    have hNf : 10 * N + f = 13 * w := Nat.div_add_mod (13 * w) 10
    have hf10 : f < 10 := Nat.mod_lt _ (by norm_num)
    have hwle : w ≤ 562949953421312 := by
      calc w ≤ 2 ^ 49 := hw
      _ = 562949953421312 := by norm_num
    have hupper : roundDoubleSig W < (N + 1) * 4503599627370496 := by
      omega
    have hlower : N * 4503599627370496 ≤ roundDoubleSig W := by
      by_cases hf0 : f = 0
      · have hNW : N * 4503599627370496 ≤ W := by omega
        have hexp : 52 - (floorLog2 W - 52) + (floorLog2 W - 52) = 52 := by omega
        have h52s : (2 : Nat) ^ (52 - (floorLog2 W - 52)) * 2 ^ (floorLog2 W - 52)
            = 4503599627370496 := by
          rw [← pow_add, hexp]
          norm_num
        have hqge : N * 2 ^ (52 - (floorLog2 W - 52)) ≤ W / 2 ^ (floorLog2 W - 52) := by
          rw [Nat.le_div_iff_mul_le (pow_pos (by norm_num) _)]
          rw [mul_assoc, h52s]
          exact hNW
        calc N * 4503599627370496
            = N * 2 ^ (52 - (floorLog2 W - 52)) * 2 ^ (floorLog2 W - 52) := by
              rw [← h52s, ← mul_assoc]
        _ ≤ W / 2 ^ (floorLog2 W - 52) * 2 ^ (floorLog2 W - 52) :=
              Nat.mul_le_mul_right _ hqge
        _ ≤ roundDoubleSig W := hlo
      · omega
    exact Nat.div_eq_of_lt_le hlower hupper
  · intro t
    unfold _num_chars_from_tokens
    ring

/-- Witness for the amended C10 at the default configuration value
`w = 1024` (and `t = 1331`). -/
theorem tokens_and_chars_estimator_witness :
    _num_tokens_from_words 1024 = 13 * 1024 / 10 ∧
    _num_chars_from_tokens 1331 = 4 * 1331 :=
  ⟨tokens_and_chars_estimator.1 1024 (by norm_num),
   tokens_and_chars_estimator.2 1331⟩

end Chunking
